import Mathlib

/-!
Shallow embedding of the batch scheduling, padding/truncation and
log-likelihood extraction engine of `src/lm_eval/models/huggingface.py`
(class `HuggingfaceCausalLM`).

Conventions:
* tokens are `Nat` (token ids);
* the floating-point log-probability values produced by the backend's
  log-softmax are modelled as values of an abstract linearly ordered
  commutative additive monoid `V` (instantiated with `ℤ` in concrete
  evaluations);
* the backend forward pass (`self._model_call` followed by `F.log_softmax`)
  is an opaque function `List (List Nat) → List (List (List V))` mapping a
  padded batch of token rows to per-row, per-position, per-vocabulary-entry
  log-probabilities;
* Python `assert` failures and other exceptions abort the enclosing call;
  fallible functions therefore return `Option`/`Except`.
-/

namespace LMEval

/-! ### Log-likelihood extraction (`_loglikelihood_tokens`, result loop) -/

/-- `torch.argmax` along the last (vocabulary) dimension: the index of the
first maximal entry of the row (`0` for an empty row). -/
def argmaxAux {V : Type} [LinearOrder V] : List V → Nat → Nat → V → Nat
  | [], _, best, _ => best
  | x :: xs, i, best, bestVal =>
    if bestVal < x then argmaxAux xs (i + 1) i x else argmaxAux xs (i + 1) best bestVal

/-- `torch.argmax` of one vocabulary row. -/
def argmax {V : Type} [LinearOrder V] : List V → Nat
  | [] => 0
  | x :: xs => argmaxAux xs 1 0 x

/-- Python slice `l[a:b]` for `0 ≤ a ≤ b`, as used on the per-row logits. -/
def slicePy {α : Type} (l : List α) (a b : Nat) : List α :=
  (l.drop a).take (b - a)

/-- One iteration of the result loop of `_loglikelihood_tokens`
(src/lm_eval/models/huggingface.py lines 251-277): slice the row's
log-softmax output to positions `[inplen - contlen, inplen)`, compare the
per-position argmax with the continuation tokens
(`max_equal = (greedy_tokens == cont_toks).all()`), and gather and sum the
log-probabilities at the continuation token indices. -/
def extractRow {V : Type} [LinearOrder V] [AddCommMonoid V]
    (logits : List (List V)) (inplen : Nat) (cont : List Nat) : V × Bool :=
  let contlen := cont.length
  let sliced := slicePy logits (inplen - contlen) inplen
  let greedyTokens := sliced.map argmax
  let maxEqual := greedyTokens == cont
  let gathered := (sliced.zip cont).map (fun p => p.1.getD p.2 0)
  (gathered.sum, maxEqual)

/-! ### Sequence encoding (`_loglikelihood_tokens`, input construction) -/

/-- The model input built for one request (lines 217-221):
`(context_enc + continuation_enc)[-(self.max_length + 1):][:-1]`, i.e. the
concatenation, left-truncated to at most `max_length + 1` tokens, with its
final token dropped. -/
def make_inp (ctxEnc contEnc : List Nat) (maxLength : Nat) : List Nat :=
  ((ctxEnc ++ contEnc).drop ((ctxEnc ++ contEnc).length - (maxLength + 1))).dropLast

/-- Python `l[-k:]` for `k > 0`: keep at most the last `k` elements. -/
def leftTrunc (l : List Nat) (k : Nat) : List Nat :=
  l.drop (l.length - k)

/-- Right padding of one row with the fixed pad value `0` up to `padLen`
(lines 231-240: `torch.cat([inp, torch.zeros(padding_length - inplen)])`). -/
def padRow (padLen : Nat) (row : List Nat) : List Nat :=
  row ++ List.replicate (padLen - row.length) 0

/-- The three `assert` statements guarding each row (lines 206-208):
`len(context_enc) > 0`, `len(continuation_enc) > 0`,
`len(continuation_enc) <= self.max_length`. -/
def checkRow (maxLength : Nat) (r : List Nat × List Nat) : Bool :=
  decide (0 < r.1.length) && decide (0 < r.2.length) && decide (r.2.length ≤ maxLength)

/-! ### Chunking (`utils.chunks`) -/

/-- Fuel-driven worker for `chunksOf`. -/
def chunksOfGo {α : Type} (n : Nat) : Nat → List α → List (List α)
  | _, [] => []
  | 0, _ :: _ => []
  | fuel + 1, x :: xs => ((x :: xs).take n) :: chunksOfGo n fuel ((x :: xs).drop n)

/-- Modelled from the spec: `utils.chunks` is imported from the harness
utilities and is not part of this file; §4.3 "partitions the (already
descending-length-sorted) encoded pairs into contiguous groups of
`batch_size` (last group may be smaller)". -/
def chunksOf {α : Type} (n : Nat) (l : List α) : List (List α) :=
  chunksOfGo n l.length l

/-! ### The Reorderer (`utils.Reorderer`) -/

/-- A caller-supplied item ordering, lifted to `(original_index, item)`
pairs: compare by the item alone. -/
def liftR {α : Type} (r : α → α → Prop) (p q : Nat × α) : Prop :=
  r p.2 q.2

instance {α : Type} {r : α → α → Prop} [DecidableRel r] : DecidableRel (liftR r) :=
  fun p q => inferInstanceAs (Decidable (r p.2 q.2))

/-- Comparison of `(original_index, value)` pairs by original index, used to
scatter results back into original order. -/
def idxLe {β : Type} (p q : Nat × β) : Prop :=
  p.1 ≤ q.1

instance {β : Type} : DecidableRel (@idxLe β) :=
  fun p q => inferInstanceAs (Decidable (p.1 ≤ q.1))

instance {β : Type} : IsTotal (Nat × β) idxLe :=
  ⟨fun a b => Nat.le_total a.1 b.1⟩

instance {β : Type} : IsTrans (Nat × β) idxLe :=
  ⟨fun _ _ _ h h' => Nat.le_trans h h'⟩

/-- Strict comparison of `(original_index, value)` pairs by original index. -/
def idxLt {β : Type} (p q : Nat × β) : Prop :=
  p.1 < q.1

instance {β : Type} : IsAntisymm (Nat × β) idxLt :=
  ⟨fun _ _ h h' => absurd (Nat.lt_trans h h') (Nat.lt_irrefl _)⟩

/-- Modelled from the spec: `utils.Reorderer` (§4.1) is imported from the
harness utilities and is not part of this file. It keeps an explicit list of
`(original_index, item)` pairs, stable-sorted ascending by a caller-supplied
key on the item ("implement as an explicit array of `(original_index, item)`
pairs sorted by key", §9). -/
def reorderPairs {α : Type} (r : α → α → Prop) [DecidableRel r] (xs : List α) :
    List (Nat × α) :=
  List.insertionSort (liftR r) xs.enum

/-- `Reorderer.get_reordered`: the items in sorted order. -/
def getReordered {α : Type} (r : α → α → Prop) [DecidableRel r] (xs : List α) : List α :=
  (reorderPairs r xs).map Prod.snd

/-- Modelled from the spec: `Reorderer.get_original` (§4.1, §9) — pair the
results (given in sorted order) with the remembered original indices and
scatter them back into original positions. -/
def getOriginal {α β : Type} (pairs : List (Nat × α)) (res : List β) : List β :=
  (List.insertionSort idxLe ((pairs.map Prod.fst).zip res)).map Prod.snd

/-! ### Sort keys -/

/-- Python comparison (`≤`) of a two-component `(scalar, sequence)` sort
key: tuples compare lexicographically, the sequence component itself
lexicographically element-wise. -/
def keyLe {γ β : Type} [LinearOrder γ] [LinearOrder β] (a b : γ × List β) : Prop :=
  a.1 < b.1 ∨ (a.1 = b.1 ∧ a.2 ≤ b.2)

instance {γ β : Type} [LinearOrder γ] [LinearOrder β] : DecidableRel (@keyLe γ β _ _) :=
  fun a b => inferInstanceAs (Decidable (a.1 < b.1 ∨ (a.1 = b.1 ∧ a.2 ≤ b.2)))

/-- `_collate` of `_loglikelihood_tokens` (lines 178-187): the sort key is
`(-len(toks), tuple(toks))` with `toks = context_enc + continuation_enc`
("the negative sign on len(toks) sorts descending"). -/
def collKey (x : List Nat × List Nat) : ℤ × List Nat :=
  (-(((x.1 ++ x.2).length : ℤ)), x.1 ++ x.2)

/-- The ordering relation induced on likelihood requests by `_collate`. -/
def collateR (a b : List Nat × List Nat) : Prop :=
  keyLe (collKey a) (collKey b)

instance : DecidableRel collateR :=
  fun a b => inferInstanceAs (Decidable (keyLe (collKey a) (collKey b)))

/-- `_collate` of `greedy_until` (lines 287-289): the key is
`(len(toks), x[0])` with `toks = self.tok_encode(x[0])` — the length is NOT
negated here. The context string tie-breaker is compared as Python compares
strings, by code points. -/
def greedyKey (tokEncode : String → List Nat) (x : String × List String) : ℕ × List Nat :=
  ((tokEncode x.1).length, x.1.data.map Char.toNat)

/-- The ordering relation induced on generation requests by `greedy_until`'s
`_collate`. -/
def greedyR (tokEncode : String → List Nat) (a b : String × List String) : Prop :=
  keyLe (greedyKey tokEncode a) (greedyKey tokEncode b)

instance {tokEncode : String → List Nat} : DecidableRel (greedyR tokEncode) :=
  fun a b =>
    inferInstanceAs (Decidable (keyLe (greedyKey tokEncode a) (greedyKey tokEncode b)))

/-- The reordered generation-request sequence that `greedy_until`'s main loop
iterates over (line 291-293). -/
def greedyReordered (tokEncode : String → List Nat) (reqs : List (String × List String)) :
    List (String × List String) :=
  getReordered (greedyR tokEncode) reqs

/-! ### Batched scoring (`_loglikelihood_tokens`) -/

/-- One iteration of the chunk loop of `_loglikelihood_tokens`
(lines 194-277): check every row's `assert`s, build the left-truncated input
of each row, take `padding_length` from the first row's pre-padding length
(`padding_length if padding_length is not None else inplen`), right-pad every
row to it, run the model on the packed batch and extract each row's answer.
An `assert` failure aborts the whole call, modelled as `none`. -/
def processChunk {V : Type} [LinearOrder V] [AddCommMonoid V]
    (model : List (List Nat) → List (List (List V))) (maxLength : Nat)
    (chunk : List (List Nat × List Nat)) : Option (List (V × Bool)) :=
  if chunk.all (checkRow maxLength) then
    let rows := chunk.map (fun r => make_inp r.1 r.2 maxLength)
    let inplens := rows.map List.length
    let paddingLength := inplens.headD 0
    let batchedInps := rows.map (padRow paddingLength)
    let multiLogits := model batchedInps
    some (((multiLogits.zip inplens).zip (chunk.map Prod.snd)).map
      (fun p => extractRow p.1.1 p.1.2 p.2))
  else none

/-- `_loglikelihood_tokens` (lines 174-279): reorder the requests by
`_collate`, walk the reordered list in batch-size chunks, and restore the
caller's original order at the end (`re_ord.get_original(res)`). Any
`assert` failure aborts the call: no partial result list is returned. -/
def loglikelihood_tokens {V : Type} [LinearOrder V] [AddCommMonoid V]
    (model : List (List Nat) → List (List (List V))) (maxLength batchSize : Nat)
    (reqs : List (List Nat × List Nat)) : Option (List (V × Bool)) :=
  let pairs := reorderPairs collateR reqs
  ((chunksOf batchSize (pairs.map Prod.snd)).mapM (processChunk model maxLength)).map
    (fun rss => getOriginal pairs rss.flatten)

/-! ### Rolling windows (`loglikelihood_rolling`) -/

/-- Worker for `rollingWindows`, carrying the single context token of the
next window (the previous span's last token). -/
def rollingWindowsGo (prev : Nat) : List (List Nat) → List (List Nat × List Nat)
  | [] => []
  | c :: cs => ([prev], c) :: rollingWindowsGo (c.getLastD prev) cs

/-- Modelled from the spec: `utils.get_rolling_token_windows` composed with
`utils.make_disjoint_window` (§4.5) — neither is part of this file. The
document's token stream is decomposed into disjoint continuation spans of
width `max_seq_len` (the last may be shorter; `ceil(L/W)` windows in total),
each paired with one token of context to its left: the designated boundary
token for the first window, the previous span's last token afterwards. -/
def rollingWindows (prefixToken maxSeqLen : Nat) (toks : List Nat) :
    List (List Nat × List Nat) :=
  rollingWindowsGo prefixToken (chunksOf maxSeqLen toks)

/-- `loglikelihood_rolling` (lines 142-172), scoring loop: for each document
string in input order, build its rolling windows, score them with
`_loglikelihood_tokens`, keep only each window's log-probability
(`string_nll = [x[0] for x in string_nll]` — `is_greedy` is discarded) and
sum (`string_nll = sum(string_nll)`). An aborted scoring call aborts the
whole loop with no result list. -/
def loglikelihood_rolling {V : Type} [LinearOrder V] [AddCommMonoid V]
    (tokEncode : String → List Nat) (model : List (List Nat) → List (List (List V)))
    (maxLength batchSize eotToken : Nat) (docs : List String) : Option (List V) :=
  docs.mapM (fun s =>
    (loglikelihood_tokens model maxLength batchSize
        (rollingWindows eotToken maxLength (tokEncode s))).map
      (fun stringNll => (stringNll.map Prod.fst).sum))

/-! ### Stop-sequence truncation (`greedy_until`) -/

/-- Python `s.split(term)[0]` for a non-empty `term`: the prefix of `s`
strictly before the first occurrence of `term` (all of `s` when `term` does
not occur in `s`). -/
def cutAt (term : List Char) : List Char → List Char
  | [] => []
  | c :: cs => if term.isPrefixOf (c :: cs) then [] else c :: cutAt term cs

/-- The stop-string loop of `greedy_until` (lines 309-310):
`for term in until: s = s.split(term)[0]`. -/
def applyStops (s : List Char) (stops : List (List Char)) : List Char :=
  stops.foldl (fun cur term => cutAt term cur) s

/-- The position of the first occurrence of `term` in `s` as a contiguous
substring, if any. -/
def firstMatchIdx (term s : List Char) : Option Nat :=
  (List.range (s.length + 1)).find? (fun i => term.isPrefixOf (s.drop i))

/-- The specification's reading of one truncation step: replace the text by
its prefix before the first occurrence of the stop string, unchanged when
the stop string is absent. -/
def truncSpec (term s : List Char) : List Char :=
  match firstMatchIdx term s with
  | some i => s.take i
  | none => s

/-- Sequential truncation as the specification words it: each stop string, in
listed order, truncates the already-truncated result of the previous one. -/
def applyStopsSpec (s : List Char) (stops : List (List Char)) : List Char :=
  stops.foldl (fun cur term => truncSpec term cur) s

/-! ### Public entry points as Python effects (`loglikelihood`,
`loglikelihood_rolling`) -/

/-- Python exceptions that the modelled fragments can raise. -/
inductive PyError where
  | assertionError
  | attributeError
deriving DecidableEq

/-- One likelihood request as `loglikelihood` (lines 123-140) sees it: two
caller-owned strings plus the mutable `resps` slot the engine writes its
answer into. -/
structure LikelihoodReq (V : Type) where
  context : String
  continuation : String
  resps : Option (V × Bool) := none
deriving DecidableEq

/-- Request encoding inside `loglikelihood` (lines 124-135): an empty context
is mapped to the single end-of-text token, otherwise both strings are
tokenized. -/
def encodeReq {V : Type} (tokEncode : String → List Nat) (eotToken : Nat)
    (r : LikelihoodReq V) : List Nat × List Nat :=
  ((if r.context = "" then [eotToken] else tokEncode r.context), tokEncode r.continuation)

/-- `loglikelihood` (lines 123-140): encode every request, score them, then
write each result pair into the matching request's `resps` slot
(`for req, resp in zip(requests, resps): req.resps = resp`). The Python
function body has no `return` statement, so a successful call's value is
`()` (Python `None`); a failed internal assertion escapes instead. -/
def loglikelihood_run {V : Type} [LinearOrder V] [AddCommMonoid V]
    (tokEncode : String → List Nat) (model : List (List Nat) → List (List (List V)))
    (maxLength batchSize eotToken : Nat) (requests : List (LikelihoodReq V)) :
    Except PyError (List (LikelihoodReq V) × Unit) :=
  match loglikelihood_tokens model maxLength batchSize
      (requests.map (encodeReq tokEncode eotToken)) with
  | none => .error .assertionError
  | some resps => .ok ((requests.zip resps).map (fun p => { p.1 with resps := some p.2 }), ())

/-- The `requests` argument of `loglikelihood_rolling`: a sequence object
holding the document strings. Line 172 assigns the whole result list as a
single attribute on the sequence object itself (`requests.resps =
loglikelihoods`); `supportsAttrAssign` records whether the object accepts
attribute assignment — a plain Python `list` does not, so that final
statement raises `AttributeError`. -/
structure RollingReqSeq (V : Type) where
  items : List String
  supportsAttrAssign : Bool
  resps : Option (List V) := none

/-- `loglikelihood_rolling` as a whole (lines 142-172): all per-document
model computation happens first; only the final statement
`requests.resps = loglikelihoods` touches the requests object, so an object
that rejects attribute assignment raises `AttributeError` only after every
document has been scored, while an assertion failure inside scoring escapes
earlier. The function body has no `return` statement, so a successful call's
value is `()` (Python `None`). -/
def loglikelihood_rolling_run {V : Type} [LinearOrder V] [AddCommMonoid V]
    (tokEncode : String → List Nat) (model : List (List Nat) → List (List (List V)))
    (maxLength batchSize eotToken : Nat) (seq : RollingReqSeq V) :
    Except PyError (RollingReqSeq V × Unit) :=
  match loglikelihood_rolling tokEncode model maxLength batchSize eotToken seq.items with
  | none => .error .assertionError
  | some vals =>
    if seq.supportsAttrAssign then .ok ({ seq with resps := some vals }, ())
    else .error .attributeError

/-! ### Concrete instances used in closed evaluations -/

/-- A concrete deterministic tokenizer (one token per character, the
character's code point), standing in for the external
`self.tok_encode` in closed evaluations. -/
def cexTok : String → List Nat :=
  fun s => s.data.map Char.toNat

/-- A concrete deterministic backend: every position of every row gets the
two-token-vocabulary log-probability row `[0, 1]` (so the argmax token is
always `1`). Stands in for the opaque forward pass in closed evaluations. -/
def demoModel : List (List Nat) → List (List (List ℤ)) :=
  fun batch => batch.map (fun row => row.map (fun _ => [0, 1]))

/-! ## Helper lemmas -/

theorem keyLe_total {γ β : Type} [LinearOrder γ] [LinearOrder β] :
    Total (@keyLe γ β _ _) := by
  intro a b
  rcases lt_trichotomy a.1 b.1 with h | h | h
  · exact Or.inl (Or.inl h)
  · rcases le_total a.2 b.2 with h2 | h2
    · exact Or.inl (Or.inr ⟨h, h2⟩)
    · exact Or.inr (Or.inr ⟨h.symm, h2⟩)
  · exact Or.inr (Or.inl h)

theorem keyLe_trans {γ β : Type} [LinearOrder γ] [LinearOrder β] :
    Transitive (@keyLe γ β _ _) := by
  intro a b c hab hbc
  rcases hab with h1 | ⟨h1, h1'⟩
  · rcases hbc with h2 | ⟨h2, h2'⟩
    · exact Or.inl (lt_trans h1 h2)
    · exact Or.inl (lt_of_lt_of_eq h1 h2)
  · rcases hbc with h2 | ⟨h2, h2'⟩
    · exact Or.inl (lt_of_eq_of_lt h1 h2)
    · exact Or.inr ⟨h1.trans h2, le_trans h1' h2'⟩

/-- The reordered list produced by the (spec-modelled) Reorderer is sorted
with respect to the item ordering, whenever that ordering is total and
transitive. -/
theorem getReordered_pairwise {α : Type} (r : α → α → Prop) [DecidableRel r]
    (htot : Total r) (htr : Transitive r) (xs : List α) :
    (getReordered r xs).Pairwise r := by
  have h := @List.sorted_insertionSort (Nat × α) (liftR r) _
    ⟨fun a b => htot a.2 b.2⟩ ⟨fun _ _ _ h h' => htr h h'⟩ xs.enum
  unfold getReordered reorderPairs
  rw [List.pairwise_map]
  exact h.imp (fun hh => hh)

theorem mem_le_foldr_max {l : List Nat} {y : Nat} (hy : y ∈ l) :
    y ≤ l.foldr max 0 := by
  induction l with
  | nil => cases hy
  | cons x xs ih =>
    rcases List.mem_cons.mp hy with h | h
    · subst h
      exact le_max_left _ _
    · exact le_trans (ih h) (le_max_right _ _)

theorem foldr_max_le {l : List Nat} {x : Nat} (h : ∀ y ∈ l, y ≤ x) :
    l.foldr max 0 ≤ x := by
  induction l with
  | nil => exact Nat.zero_le _
  | cons z zs ih =>
    simp only [List.foldr_cons]
    exact max_le (h z (List.mem_cons_self _ _)) (ih (fun y hy => h y (List.mem_cons_of_mem _ hy)))

theorem headD_eq_foldr_max {l : List Nat} (hne : l ≠ [])
    (hdesc : l.Pairwise (fun a b => b ≤ a)) : l.headD 0 = l.foldr max 0 := by
  cases l with
  | nil => exact absurd rfl hne
  | cons x xs =>
    simp only [List.headD_cons, List.foldr_cons]
    have hx : ∀ y ∈ xs, y ≤ x := (List.pairwise_cons.mp hdesc).1
    exact (max_eq_left (foldr_max_le hx)).symm

theorem slicePy_length {α : Type} (l : List α) (a b : Nat)
    (hb : b ≤ l.length) : (slicePy l a b).length = b - a := by
  simp [slicePy]
  omega

theorem slicePy_getElem {α : Type} (l : List α) (a b n : Nat)
    (h : n < (slicePy l a b).length) (h' : a + n < l.length) :
    (slicePy l a b)[n] = l[a + n] := by
  simp only [slicePy] at h ⊢
  rw [List.getElem_take, List.getElem_drop]

/-! ## Claim theorems -/

/-- C2: for every `(context_tokens, continuation_tokens)` pair, the model
input built for the forward pass equals the concatenation
`context_tokens ++ continuation_tokens`, first truncated from the left so
its length does not exceed `max_context_length + 1`, then with its final
token dropped; consequently the input's length is at most
`max_context_length`, and when the concatenation already fits it equals the
full concatenation without its last token. -/
theorem make_inp_spec (ctxEnc contEnc : List Nat) (maxLength : Nat) :
    make_inp ctxEnc contEnc maxLength =
        (leftTrunc (ctxEnc ++ contEnc) (maxLength + 1)).dropLast ∧
      (leftTrunc (ctxEnc ++ contEnc) (maxLength + 1)).length ≤ maxLength + 1 ∧
      (make_inp ctxEnc contEnc maxLength).length ≤ maxLength ∧
      ((ctxEnc ++ contEnc).length ≤ maxLength + 1 →
        make_inp ctxEnc contEnc maxLength = (ctxEnc ++ contEnc).dropLast) := by
  refine ⟨rfl, ?_, ?_, ?_⟩
  · simp only [leftTrunc, List.length_drop]
    omega
  · simp only [make_inp, List.length_dropLast, List.length_drop]
    omega
  · intro h
    have h0 : (ctxEnc ++ contEnc).length - (maxLength + 1) = 0 := by omega
    unfold make_inp
    rw [h0, List.drop_zero]

/-- C5: the `(log_probability, is_greedy)` pair computed for a row depends
only on the logits at positions `[inplen - contlen, inplen)` of that row:
two per-row log-softmax outputs that agree on every position of that span
yield bit-identical extraction results, so logits at padded positions (index
at least `inplen`) or before the continuation span never influence the
answer. -/
theorem extractRow_padding_noninterference {V : Type} [LinearOrder V] [AddCommMonoid V]
    (logits₁ logits₂ : List (List V)) (inplen : Nat) (cont : List Nat)
    (hc : cont.length ≤ inplen) (h₁ : inplen ≤ logits₁.length)
    (h₂ : inplen ≤ logits₂.length)
    (hagree : ∀ p, inplen - cont.length ≤ p → p < inplen →
      logits₁.getD p [] = logits₂.getD p []) :
    extractRow logits₁ inplen cont = extractRow logits₂ inplen cont := by
  have hs : slicePy logits₁ (inplen - cont.length) inplen =
      slicePy logits₂ (inplen - cont.length) inplen := by
    apply List.ext_getElem
    · rw [slicePy_length _ _ _ h₁, slicePy_length _ _ _ h₂]
    · intro n hn₁ hn₂
      have hlt : inplen - cont.length + n < inplen := by
        rw [slicePy_length _ _ _ h₁] at hn₁
        omega
      rw [slicePy_getElem _ _ _ _ hn₁ (by omega), slicePy_getElem _ _ _ _ hn₂ (by omega)]
      have := hagree (inplen - cont.length + n) (by omega) hlt
      rwa [List.getD_eq_getElem _ _ (by omega), List.getD_eq_getElem _ _ (by omega)] at this
  simp only [extractRow]
  rw [hs]

/-- C1: for a row with pre-padding input length `inplen` and non-empty
continuation `cont`, the extraction slices the row's log-softmax output to
positions `[inplen - contlen, inplen)`, returns a log-probability equal to
the sum over `k` of the sliced distribution at position `k` evaluated at
token `cont[k]`, and returns `is_greedy = true` if and only if for every
position `k` the argmax of the sliced distribution at position `k` equals
`cont[k]`. -/
theorem extractRow_spec {V : Type} [LinearOrder V] [AddCommMonoid V]
    (logits : List (List V)) (inplen : Nat) (cont : List Nat)
    (_hne : cont ≠ []) (hc : cont.length ≤ inplen) (hl : inplen ≤ logits.length) :
    (extractRow logits inplen cont).1 =
        ((List.range cont.length).map (fun k =>
          (logits.getD (inplen - cont.length + k) []).getD (cont.getD k 0) 0)).sum ∧
      ((extractRow logits inplen cont).2 = true ↔
        ∀ k, k < cont.length →
          argmax (logits.getD (inplen - cont.length + k) []) = cont.getD k 0) := by
  have hslen : (slicePy logits (inplen - cont.length) inplen).length = cont.length := by
    rw [slicePy_length _ _ _ hl]
    omega
  have hsget : ∀ k, k < cont.length →
      (slicePy logits (inplen - cont.length) inplen).getD k [] =
        logits.getD (inplen - cont.length + k) [] := by
    intro k hk
    rw [List.getD_eq_getElem _ _ (by omega), List.getD_eq_getElem _ _ (by omega),
      slicePy_getElem _ _ _ _ (by omega) (by omega)]
  constructor
  · simp only [extractRow]
    apply congrArg List.sum
    apply List.ext_getElem
    · simp [hslen]
    · intro n h1 h2
      simp only [List.getElem_map, List.getElem_zip, List.getElem_range]
      have hn : n < cont.length := by
        simpa [hslen] using h2
      rw [List.getD_eq_getElem logits [] (by omega), List.getD_eq_getElem cont 0 hn,
        slicePy_getElem _ _ _ _ (by rw [hslen]; exact hn) (by omega)]
  · simp only [extractRow, beq_iff_eq]
    constructor
    · intro h k hk
      have h5 := congrArg (fun l => l.getD k 0) h
      simp only [] at h5
      rw [List.getD_eq_getElem _ _ (by simpa [hslen] using hk), List.getElem_map,
        slicePy_getElem _ _ _ _ (by rw [hslen]; exact hk) (by omega)] at h5
      rw [List.getD_eq_getElem logits [] (by omega)]
      exact h5
    · intro h
      apply List.ext_getElem
      · simp [hslen]
      · intro n h1 h2
        have hn : n < cont.length := h2
        have h6 := h n hn
        rw [List.getD_eq_getElem logits [] (by omega),
          List.getD_eq_getElem cont 0 hn] at h6
        rw [List.getElem_map, slicePy_getElem _ _ _ _ (by rw [hslen]; exact hn) (by omega)]
        exact h6

/-- Witness for C1: a concrete three-position, two-token-vocabulary row. -/
theorem extractRow_spec_witness :
    (extractRow (V := ℤ) [[0, 1], [2, 3], [9, 9]] 2 [1]).1 = 3 ∧
      (extractRow (V := ℤ) [[0, 1], [2, 3], [9, 9]] 2 [1]).2 = true := by
  have h := extractRow_spec (V := ℤ) [[0, 1], [2, 3], [9, 9]] 2 [1]
    (by decide) (by decide) (by decide)
  refine ⟨?_, ?_⟩
  · rw [h.1]
    decide
  · exact h.2.mpr (by decide)

/-- Witness for C5: perturbing the logits at position `0` (outside the span
`[1, 2)`) leaves the extraction result unchanged. -/
theorem extractRow_padding_noninterference_witness :
    extractRow (V := ℤ) [[0, 1], [2, 3]] 2 [1] =
      extractRow (V := ℤ) [[5, 5], [2, 3]] 2 [1] :=
  extractRow_padding_noninterference [[0, 1], [2, 3]] [[5, 5], [2, 3]] 2 [1]
    (by decide) (by decide) (by decide)
    (by
      intro p h1 h2
      have hp : p = 1 := by
        simp only [List.length_cons, List.length_nil] at h1
        omega
      subst hp
      rfl)

/-- C3: composing `get_original` after an order-preserving-per-item
transformation after `get_reordered` restores exactly the caller's original
request order: for every request list `xs` and per-item result function `g`,
the restored result list is `xs.map g`, whatever ordering relation the
internal reordering used. -/
theorem getOriginal_reorder {α β : Type} (r : α → α → Prop) [DecidableRel r]
    (xs : List α) (g : α → β) :
    getOriginal (reorderPairs r xs) ((getReordered r xs).map g) = xs.map g := by
  classical
  have hperm : (reorderPairs r xs).Perm xs.enum := List.perm_insertionSort _ _
  have htag : getOriginal (reorderPairs r xs) ((getReordered r xs).map g) =
      (List.insertionSort idxLe
        ((reorderPairs r xs).map (fun p => (p.1, g p.2)))).map Prod.snd := by
    unfold getOriginal getReordered
    rw [List.map_map, List.zip_map']
    rfl
  have hpermT : ((reorderPairs r xs).map (fun p => (p.1, g p.2))).Perm
      (xs.enum.map fun p => (p.1, g p.2)) := hperm.map _
  have hsortPerm : (List.insertionSort idxLe
      ((reorderPairs r xs).map (fun p => (p.1, g p.2)))).Perm
      (xs.enum.map fun p => (p.1, g p.2)) :=
    (List.perm_insertionSort _ _).trans hpermT
  have htargetFst : (xs.enum.map fun p : Nat × α => (p.1, g p.2)).map Prod.fst =
      List.range xs.length := by
    rw [List.map_map]
    have hcomp : (Prod.fst ∘ fun p : Nat × α => (p.1, g p.2)) = Prod.fst := rfl
    rw [hcomp, List.enum_map_fst]
  have htargetLt : List.Pairwise idxLt (xs.enum.map fun p : Nat × α => (p.1, g p.2)) := by
    have h1 : List.Pairwise (· < ·) (List.range xs.length) := List.pairwise_lt_range _
    rw [← htargetFst, List.pairwise_map] at h1
    exact h1.imp (fun h => h)
  have hsorted : List.Pairwise idxLe (List.insertionSort idxLe
      ((reorderPairs r xs).map (fun p => (p.1, g p.2)))) :=
    List.sorted_insertionSort idxLe _
  have hnodup : ((List.insertionSort idxLe
      ((reorderPairs r xs).map (fun p => (p.1, g p.2)))).map Prod.fst).Nodup := by
    rw [(hsortPerm.map Prod.fst).nodup_iff, htargetFst]
    exact List.nodup_range _
  have hne : List.Pairwise (fun p q : Nat × β => p.1 ≠ q.1)
      (List.insertionSort idxLe ((reorderPairs r xs).map (fun p => (p.1, g p.2)))) := by
    have h2 : List.Pairwise (· ≠ ·) ((List.insertionSort idxLe
        ((reorderPairs r xs).map (fun p => (p.1, g p.2)))).map Prod.fst) := hnodup
    rw [List.pairwise_map] at h2
    exact h2
  have hsortedLt : List.Pairwise idxLt (List.insertionSort idxLe
      ((reorderPairs r xs).map (fun p => (p.1, g p.2)))) :=
    (hsorted.and hne).imp (fun h => lt_of_le_of_ne h.1 h.2)
  have heq : List.insertionSort idxLe ((reorderPairs r xs).map (fun p => (p.1, g p.2))) =
      xs.enum.map fun p => (p.1, g p.2) :=
    List.eq_of_perm_of_sorted hsortPerm hsortedLt htargetLt
  rw [htag, heq, List.map_map]
  have hcomp2 : (Prod.snd ∘ fun p : Nat × α => (p.1, g p.2)) = g ∘ Prod.snd := rfl
  rw [hcomp2, ← List.map_map, List.enum_map_snd]

/-- C4: for every chunk of encoded requests turned into one batch, the
batch's `padding_length` — the first row's pre-padding input length — equals,
given the descending-length ordering of the chunk, the maximum of the
chunk's pre-padding input lengths, and every row padded on the right up to
`padding_length` has exactly that width, so every row of the token matrix is
equally wide. -/
theorem padding_spec (chunk : List (List Nat × List Nat)) (maxLength : Nat)
    (hne : chunk ≠ [])
    (hdesc : (chunk.map (fun r => make_inp r.1 r.2 maxLength)).Pairwise
      (fun a b => b.length ≤ a.length)) :
    ((chunk.map (fun r => make_inp r.1 r.2 maxLength)).map List.length).headD 0 =
        ((chunk.map (fun r => make_inp r.1 r.2 maxLength)).map List.length).foldr max 0 ∧
      ∀ row ∈ chunk.map (fun r => make_inp r.1 r.2 maxLength),
        (padRow
            (((chunk.map (fun r => make_inp r.1 r.2 maxLength)).map List.length).headD 0)
            row).length =
          ((chunk.map (fun r => make_inp r.1 r.2 maxLength)).map List.length).headD 0 := by
  set rows := chunk.map (fun r => make_inp r.1 r.2 maxLength) with hrows
  have hrne : rows.map List.length ≠ [] := by
    simp only [hrows, ne_eq, List.map_eq_nil_iff]
    exact hne
  have hld : (rows.map List.length).Pairwise (fun a b => b ≤ a) := by
    rw [List.pairwise_map]
    exact hdesc
  have hmax := headD_eq_foldr_max hrne hld
  refine ⟨hmax, ?_⟩
  intro row hrow
  have hle : row.length ≤ (rows.map List.length).headD 0 := by
    rw [hmax]
    exact mem_le_foldr_max (List.mem_map_of_mem _ hrow)
  simp only [padRow, List.length_append, List.length_replicate]
  omega

/-- Witness for C4: a concrete descending two-row chunk; the shorter row is
padded up to the first row's length. -/
theorem padding_spec_witness :
    (padRow 2 (make_inp [4] [5] 10)).length = 2 := by
  have h := padding_spec [([1, 2], [3]), ([4], [5])] 10 (by decide) (by decide)
  have h2 := h.2 (make_inp [4] [5] 10) (by decide)
  have e : (([([1, 2], [3]), ([4], [5])].map
      (fun r => make_inp r.1 r.2 10)).map List.length).headD 0 = 2 := by decide
  rw [e] at h2
  exact h2

/-- Counterexample for C7, two parts. (1) With a concrete tokenizer,
`greedy_until`'s reordering puts the SHORTER context first — its `_collate`
key is `(len(toks), x[0])`, not negated — so the reordered generation
requests are in ascending, not descending, context-token-length order.
(2) In the likelihood path, two requests of equal total token length are
NOT left in original order ("ties broken stably"): the `tuple(toks)`
component of the key reorders them by token content. -/
theorem greedy_descending_counterexample :
    (greedyReordered cexTok [("ab", ["x"]), ("a", ["x"])] =
        [("a", ["x"]), ("ab", ["x"])] ∧
      ¬ (greedyReordered cexTok [("ab", ["x"]), ("a", ["x"])]).Pairwise
          (fun a b => (cexTok b.1).length ≤ (cexTok a.1).length)) ∧
      getReordered collateR [([5], [7]), ([3], [7])] = [([3], [7]), ([5], [7])] :=
  ⟨⟨by decide, by decide⟩, by decide⟩

/-- C7 (amended): the reordered request sequence of each entry point is
sorted ascending by its `_collate` key. For likelihood scoring the key is
`(-len(context_enc + continuation_enc), tuple(tokens))`, so requests appear
in descending total-token-length order with length ties ordered by
lexicographic comparison of the token sequences; for greedy generation the
key is `(len(context tokens), context string)`, so its requests are
processed in ASCENDING context-token-length order. -/
theorem reordered_order_spec :
    (∀ reqs : List (List Nat × List Nat),
      (getReordered collateR reqs).Pairwise (fun a b =>
        (b.1 ++ b.2).length ≤ (a.1 ++ a.2).length ∧
          ((a.1 ++ a.2).length = (b.1 ++ b.2).length → a.1 ++ a.2 ≤ b.1 ++ b.2))) ∧
      (∀ (tokEncode : String → List Nat) (reqs : List (String × List String)),
        (greedyReordered tokEncode reqs).Pairwise (fun a b =>
          (tokEncode a.1).length ≤ (tokEncode b.1).length)) := by
  constructor
  · intro reqs
    have h := getReordered_pairwise collateR
      (fun a b => keyLe_total (collKey a) (collKey b))
      (fun _ _ _ hab hbc => keyLe_trans hab hbc) reqs
    refine h.imp ?_
    intro a b hab
    have hab' : (collKey a).1 < (collKey b).1 ∨
        ((collKey a).1 = (collKey b).1 ∧ (collKey a).2 ≤ (collKey b).2) := hab
    rcases hab' with h1 | ⟨h1, h1'⟩
    · simp only [collKey] at h1
      constructor
      · omega
      · intro hEq
        exact absurd hEq (by omega)
    · simp only [collKey] at h1 h1'
      have hlen : (b.1 ++ b.2).length = (a.1 ++ a.2).length := by omega
      exact ⟨le_of_eq hlen, fun _ => h1'⟩
  · intro tokEncode reqs
    have h := getReordered_pairwise (greedyR tokEncode)
      (fun a b => keyLe_total (greedyKey tokEncode a) (greedyKey tokEncode b))
      (fun _ _ _ hab hbc => keyLe_trans hab hbc) reqs
    refine h.imp ?_
    intro a b hab
    have hab' : (greedyKey tokEncode a).1 < (greedyKey tokEncode b).1 ∨
        ((greedyKey tokEncode a).1 = (greedyKey tokEncode b).1 ∧
          (greedyKey tokEncode a).2 ≤ (greedyKey tokEncode b).2) := hab
    rcases hab' with h1 | ⟨h1, _⟩
    · exact le_of_lt h1
    · exact le_of_eq h1

theorem chunksOfGo_flatten {α : Type} (n : Nat) (hn : 0 < n) :
    ∀ (fuel : Nat) (l : List α), l.length ≤ fuel → (chunksOfGo n fuel l).flatten = l := by
  intro fuel
  induction fuel with
  | zero =>
    intro l hl
    cases l with
    | nil => rfl
    | cons x xs => simp at hl
  | succ fuel ih =>
    intro l hl
    cases l with
    | nil => rfl
    | cons x xs =>
      simp only [chunksOfGo, List.flatten_cons]
      rw [ih ((x :: xs).drop n)
        (by rw [List.length_drop]; simp only [List.length_cons] at hl ⊢; omega)]
      exact List.take_append_drop n (x :: xs)

theorem chunksOf_flatten {α : Type} (n : Nat) (hn : 0 < n) (l : List α) :
    (chunksOf n l).flatten = l :=
  chunksOfGo_flatten n hn l.length l (Nat.le_refl _)

theorem mapM_eq_none_of_mem {α β : Type} (f : α → Option β) :
    ∀ (l : List α) (a : α), a ∈ l → f a = none → l.mapM f = none := by
  intro l
  induction l with
  | nil => intro a ha; cases ha
  | cons x xs ih =>
    intro a ha hf
    rw [List.mapM_cons]
    rcases List.mem_cons.mp ha with h | h
    · subst h
      rw [hf]
      rfl
    · cases hx : f x with
      | none => rfl
      | some b =>
        rw [ih a h hf]
        rfl

theorem mapM_eq_some {α β : Type} (f : α → Option β) :
    ∀ (l : List α) (out : List β), l.mapM f = some out →
      out.length = l.length ∧
        ∀ i (hi : i < l.length) (ho : i < out.length), f l[i] = some out[i] := by
  intro l
  induction l with
  | nil =>
    intro out h
    rw [List.mapM_nil] at h
    obtain rfl : out = [] := by simpa using h.symm
    exact ⟨rfl, fun i hi => absurd hi (by simp)⟩
  | cons x xs ih =>
    intro out h
    rw [List.mapM_cons] at h
    cases hx : f x with
    | none =>
      rw [hx] at h
      simp at h
    | some y =>
      rw [hx] at h
      cases hxs : xs.mapM f with
      | none =>
        rw [hxs] at h
        simp at h
      | some ys =>
        rw [hxs] at h
        simp only [Option.bind_eq_bind, Option.some_bind, Option.pure_def,
          Option.some.injEq] at h
        subst h
        obtain ⟨hlen, hall⟩ := ih ys hxs
        refine ⟨by simp [hlen], ?_⟩
        intro i hi ho
        cases i with
        | zero => simpa using hx
        | succ j =>
          simp only [List.getElem_cons_succ]
          exact hall j (by simpa using hi) (by simpa using ho)

/-- The reordered request list is a permutation of the input request list. -/
theorem getReordered_perm {α : Type} (r : α → α → Prop) [DecidableRel r] (xs : List α) :
    (getReordered r xs).Perm xs := by
  unfold getReordered reorderPairs
  have h := (List.perm_insertionSort (liftR r) xs.enum).map Prod.snd
  rwa [List.enum_map_snd] at h

/-- C8: if any request's continuation is empty or longer than the model's max
context length, `_loglikelihood_tokens` aborts with a fatal assertion failure
when that request's batch is assembled — the continuation is never silently
truncated, and no partial result list is returned for the call. -/
theorem continuation_too_long_aborts {V : Type} [LinearOrder V] [AddCommMonoid V]
    (model : List (List Nat) → List (List (List V))) (maxLength batchSize : Nat)
    (reqs : List (List Nat × List Nat)) (req : List Nat × List Nat)
    (hbs : 0 < batchSize) (hmem : req ∈ reqs)
    (hbad : req.2.length = 0 ∨ maxLength < req.2.length) :
    loglikelihood_tokens model maxLength batchSize reqs = none := by
  have hmem' : req ∈ (reorderPairs collateR reqs).map Prod.snd :=
    ((getReordered_perm collateR reqs).mem_iff).mpr hmem
  obtain ⟨c, hc, hrc⟩ := List.mem_flatten.mp
    (by rw [chunksOf_flatten batchSize hbs]; exact hmem')
  have hall : c.all (checkRow maxLength) = false := by
    cases hall : c.all (checkRow maxLength) with
    | false => rfl
    | true =>
      have hck := List.all_eq_true.mp hall req hrc
      simp only [checkRow, Bool.and_eq_true, decide_eq_true_eq] at hck
      omega
  have hchunk : processChunk model maxLength c = none := by
    simp [processChunk, hall]
  simp only [loglikelihood_tokens]
  rw [mapM_eq_none_of_mem _ _ c hc hchunk]
  rfl

/-- Witness for C8: a concrete request with an empty continuation aborts the
whole call. -/
theorem continuation_too_long_aborts_witness :
    loglikelihood_tokens demoModel 3 1 [([1], ([] : List Nat))] = none :=
  continuation_too_long_aborts demoModel 3 1 [([1], [])] ([1], [])
    (by decide) (by decide) (Or.inl rfl)

/-- C9: whenever rolling scoring completes, it produces in input order one
value per document, and that value is the sum over the document's disjoint
rolling windows of the window's log-probability — each window's `is_greedy`
flag is discarded, only the scalar sum is kept per document. -/
theorem rolling_spec {V : Type} [LinearOrder V] [AddCommMonoid V]
    (tokEncode : String → List Nat) (model : List (List Nat) → List (List (List V)))
    (maxLength batchSize eotToken : Nat) (docs : List String) (out : List V)
    (h : loglikelihood_rolling tokEncode model maxLength batchSize eotToken docs =
      some out) :
    out.length = docs.length ∧
      ∀ i (hi : i < docs.length) (ho : i < out.length),
        ∃ scored, loglikelihood_tokens model maxLength batchSize
            (rollingWindows eotToken maxLength (tokEncode docs[i])) = some scored ∧
          out[i] = (scored.map Prod.fst).sum := by
  unfold loglikelihood_rolling at h
  obtain ⟨hlen, hall⟩ := mapM_eq_some _ docs out h
  refine ⟨hlen, ?_⟩
  intro i hi ho
  have hi2 := hall i hi ho
  cases hscored : loglikelihood_tokens model maxLength batchSize
      (rollingWindows eotToken maxLength (tokEncode docs[i])) with
  | none =>
    rw [hscored] at hi2
    simp at hi2
  | some scored =>
    rw [hscored] at hi2
    simp only [Option.map_some'] at hi2
    exact ⟨scored, rfl, (Option.some.inj hi2).symm⟩

/-- Witness for C9: a concrete one-document run of the rolling pipeline. -/
theorem rolling_spec_witness :
    loglikelihood_rolling (V := ℤ) cexTok demoModel 2 1 0 ["ab"] = some [0] ∧
      ([0] : List ℤ).length = (["ab"] : List String).length := by
  have e : loglikelihood_rolling (V := ℤ) cexTok demoModel 2 1 0 ["ab"] =
      some [0] := by decide
  exact ⟨e, (rolling_spec cexTok demoModel 2 1 0 ["ab"] [0] e).1⟩

theorem firstMatchIdx_cons (term : List Char) (c : Char) (cs : List Char) :
    firstMatchIdx term (c :: cs) =
      if term.isPrefixOf (c :: cs) then some 0
      else (firstMatchIdx term cs).map Nat.succ := by
  unfold firstMatchIdx
  simp only [List.length_cons]
  rw [List.range_succ_eq_map, List.find?_cons]
  cases h : term.isPrefixOf (c :: cs) with
  | false =>
    simp only [List.drop_zero, h]
    rw [List.find?_map]
    rfl
  | true =>
    simp [List.drop_zero, h]

theorem cutAt_eq_truncSpec (term : List Char) :
    ∀ s : List Char, cutAt term s = truncSpec term s := by
  intro s
  induction s with
  | nil =>
    cases term with
    | nil => rfl
    | cons t ts => rfl
  | cons c cs ih =>
    unfold truncSpec
    rw [firstMatchIdx_cons]
    cases h : term.isPrefixOf (c :: cs) with
    | true =>
      unfold cutAt
      simp [h]
    | false =>
      unfold cutAt
      simp only [h, Bool.false_eq_true, if_false]
      rw [ih]
      cases hf : firstMatchIdx term cs with
      | none => simp [truncSpec, hf]
      | some i => simp [truncSpec, hf, List.take_succ_cons]

/-- C6: the text returned by `greedy_until`'s stop-string loop equals the
result of sequential truncation — starting from the generated text, each stop
string in listed order replaces the current text by its prefix before the
first occurrence of that stop string (unchanged if absent); in particular the
raw text `"abc<STOP1>def<STOP2>ghi"` with stop list `["<STOP2>", "<STOP1>"]`
yields `"abc"`. -/
theorem applyStops_spec :
    (∀ (s : List Char) (stops : List (List Char)),
      applyStops s stops = applyStopsSpec s stops) ∧
      applyStops "abc<STOP1>def<STOP2>ghi".data ["<STOP2>".data, "<STOP1>".data] =
        "abc".data := by
  constructor
  · intro s stops
    induction stops generalizing s with
    | nil => rfl
    | cons t ts ih =>
      unfold applyStops applyStopsSpec
      simp only [List.foldl_cons]
      rw [cutAt_eq_truncSpec]
      exact ih (truncSpec t s)
  · decide

/-- C10: both public entry points deliver results by mutation and return
Python `None` (modelled as `()`): `loglikelihood` writes each
`(log_probability, is_greedy)` pair into the matching request's `resps` slot
(position `i` of the zip gets result `i`), while `loglikelihood_rolling`
assigns the entire result list as one `resps` attribute on the requests
sequence object itself — so a sequence object that rejects attribute
assignment (a plain Python list) raises `AttributeError`, and only after all
model computation succeeded for every document (an assertion failure inside
scoring escapes first instead). -/
theorem entry_points_mutation_spec {V : Type} [LinearOrder V] [AddCommMonoid V]
    (tokEncode : String → List Nat) (model : List (List Nat) → List (List (List V)))
    (maxLength batchSize eotToken : Nat) :
    (∀ (requests : List (LikelihoodReq V)) (ps : List (V × Bool)),
      loglikelihood_tokens model maxLength batchSize
          (requests.map (encodeReq tokEncode eotToken)) = some ps →
        loglikelihood_run tokEncode model maxLength batchSize eotToken requests =
            Except.ok ((requests.zip ps).map (fun p => { p.1 with resps := some p.2 }), ()) ∧
          ∀ i, i < requests.length → i < ps.length →
            ((requests.zip ps).map (fun p => { p.1 with resps := some p.2 })).getD i
                ⟨"", "", none⟩ =
              { requests.getD i ⟨"", "", none⟩ with resps := some (ps.getD i (0, false)) }) ∧
      (∀ seq : RollingReqSeq V,
        (loglikelihood_rolling tokEncode model maxLength batchSize eotToken seq.items =
            none →
          loglikelihood_rolling_run tokEncode model maxLength batchSize eotToken seq =
            Except.error PyError.assertionError) ∧
        ∀ vals, loglikelihood_rolling tokEncode model maxLength batchSize eotToken
            seq.items = some vals →
          (seq.supportsAttrAssign = false →
            loglikelihood_rolling_run tokEncode model maxLength batchSize eotToken seq =
              Except.error PyError.attributeError) ∧
          (seq.supportsAttrAssign = true →
            loglikelihood_rolling_run tokEncode model maxLength batchSize eotToken seq =
              Except.ok ({ seq with resps := some vals }, ()))) := by
  refine ⟨?_, ?_⟩
  · intro requests ps h
    refine ⟨?_, ?_⟩
    · unfold loglikelihood_run
      rw [h]
    · intro i h1 h2
      have hz : i < ((requests.zip ps).map
          (fun p => { p.1 with resps := some p.2 })).length := by
        simp only [List.length_map, List.length_zip]
        omega
      rw [List.getD_eq_getElem _ _ hz, List.getElem_map, List.getElem_zip,
        List.getD_eq_getElem _ _ h1, List.getD_eq_getElem _ _ h2]
  · intro seq
    refine ⟨?_, ?_⟩
    · intro h
      unfold loglikelihood_rolling_run
      rw [h]
    · intro vals h
      refine ⟨?_, ?_⟩
      · intro hs
        unfold loglikelihood_rolling_run
        rw [h]
        simp [hs]
      · intro hs
        unfold loglikelihood_rolling_run
        rw [h]
        simp [hs]

/-- Witness for C10: a concrete `loglikelihood` call mutates the request's
`resps` slot and returns `()`, and a concrete `loglikelihood_rolling` call on
a plain list raises `AttributeError` after scoring completed. -/
theorem entry_points_mutation_witness :
    loglikelihood_run (V := ℤ) cexTok demoModel 2 1 0 [⟨"a", "b", none⟩] =
        Except.ok ([⟨"a", "b", some ((0 : ℤ), false)⟩], ()) ∧
      loglikelihood_rolling_run (V := ℤ) cexTok demoModel 2 1 0 ⟨["ab"], false, none⟩ =
        Except.error PyError.attributeError := by
  have h1 : loglikelihood_tokens (V := ℤ) demoModel 2 1
      (([⟨"a", "b", none⟩] : List (LikelihoodReq ℤ)).map (encodeReq cexTok 0)) =
      some [(0, false)] := by decide
  have h2 : loglikelihood_rolling (V := ℤ) cexTok demoModel 2 1 0 ["ab"] =
      some [0] := by decide
  constructor
  · have h3 := ((entry_points_mutation_spec cexTok demoModel 2 1 0).1
      [⟨"a", "b", none⟩] [(0, false)] h1).1
    rw [h3]
    rfl
  · exact (((entry_points_mutation_spec cexTok demoModel 2 1 0).2
      ⟨["ab"], false, none⟩).2 [0] h2).1 rfl

end LMEval
